import Mathlib

set_option maxHeartbeats 1000000
set_option linter.unusedSectionVars false
set_option linter.unusedVariables false

/-!
Shallow embedding of `src/script.py`: a Distance Vector routing simulator.

The Python program defines a class `Network` with
  * `nodes`            : a list of node labels,
  * `graph`            : a dict `{node: {neighbor: cost}}`,
  * `routing_tables`   : a dict `{node: {dest: (cost, next_hop)}}`,
and methods `__init__`, `add_link`, `initialize_tables`, `update_routing`
(plus a driver `simulate` that repeats `update_routing` until it returns
`False`).

Modelling decisions:
  * Node labels are an arbitrary type `V` with decidable equality
    (instantiated with `Char` for the concrete 8-node network of the script
    and with `ℕ` for small witnesses).
  * Python's `float('inf')` cost sentinel is `(⊤ : WithTop ℤ)`; link costs
    are Python ints, i.e. `ℤ`.  `WithTop ℤ` has exactly the arithmetic the
    script relies on: `c + ⊤ = ⊤` and `⊤ < x` never holds.
  * The outer dicts `graph` and `routing_tables` have the construction-time
    `nodes` as their key set, and `__init__`/`add_link`/`initialize_tables`/
    `update_routing` never add or remove outer keys.  They are therefore
    represented as total functions that are `[]` / `(⊤, none)` off that key
    set; the `KeyError` raised by `add_link` on an unknown node is modelled
    by an explicit membership test against `nodes` (the outer key set).
  * The inner dict `graph[node]` is an insertion-ordered association list,
    matching Python dict iteration order, since `update_routing` iterates
    over `graph[node].items()`.
  * The keys of `routing_tables[neighbor]` are exactly `nodes`, in that
    order (the dict comprehension in `__init__` builds them so, and item
    assignment to an existing key keeps the order), so the innermost loop
    of `update_routing` iterates over `nodes`.
  * The in-place dict mutations of `update_routing` are explicit state
    passing through left folds: each iteration of the Python loops reads
    the tables as they are at that moment, which a `List.foldl` over the
    current state reproduces exactly.
  * `add_link` returns `Except (Network V) (Network V)`: `.ok` is normal
    return, `.error` models a raised `KeyError`, carrying the state the
    object has at the moment the exception propagates (Python mutations
    made before the raise survive in the object).
-/

namespace DV

/-- Entry of a routing table: `(cost, next_hop)`, as stored by the script;
`(⊤, none)` is the `(float('inf'), None)` sentinel. -/
abbrev Entry (V : Type) := WithTop ℤ × Option V

/-- All routing tables at once: `routing_tables[source][dest]`. -/
abbrev RT (V : Type) := V → V → Entry V

variable {V : Type} [DecidableEq V]

/-- Update of a one-argument function at one point (used for the outer
`graph` dict, whose key set never changes). -/
def funUpd {α : Type} (g : V → α) (a : V) (v : α) : V → α :=
  fun x => if x = a then v else g x

/-- Python `d[k] = v` on an insertion-ordered association list: overwrite in
place if the key is present, append otherwise. -/
def dictSet (l : List (V × ℤ)) (k : V) (v : ℤ) : List (V × ℤ) :=
  if l.any (fun p => decide (p.1 = k)) then
    l.map (fun p => if p.1 = k then (k, v) else p)
  else l ++ [(k, v)]

/-- Python `self.routing_tables[a][b] = e`. -/
def rtSet (rt : RT V) (a b : V) (e : Entry V) : RT V :=
  fun x y => if x = a ∧ y = b then e else rt x y

/-- State of a `Network` object of the script. -/
structure Network (V : Type) where
  nodes : List V
  graph : V → List (V × ℤ)
  routing_tables : RT V

/-- Method `__init__(self, nodes)`: empty adjacency dicts and all-infinite
routing tables. -/
def Network.mkNet (nodes : List V) : Network V :=
  { nodes := nodes
    graph := fun _ => []
    routing_tables := fun _ _ => (⊤, none) }

/-- Effect on `graph` of the two assignments of a successful `add_link`:
`self.graph[node1][node2] = cost` first (reading the old `graph[node1]`),
then `self.graph[node2][node1] = cost` (reading the already-updated graph,
which matters when `node1 = node2`). -/
def add_link_graph (g : V → List (V × ℤ)) (node1 node2 : V) (cost : ℤ) :
    V → List (V × ℤ) :=
  funUpd (funUpd g node1 (dictSet (g node1) node2 cost)) node2
    (dictSet ((funUpd g node1 (dictSet (g node1) node2 cost)) node2) node1 cost)

/-- Method `add_link(self, node1, node2, cost)`.  The script executes
`self.graph[node1][node2] = cost` and then `self.graph[node2][node1] = cost`;
either line raises `KeyError` when its outer key is not a configured node
(the outer key set of `graph` is exactly `nodes`).  `.error` models the
raised `KeyError` and carries the object state at the moment the exception
propagates: when `node1` is known but `node2` is not, the first assignment
has already mutated `graph[node1]`. -/
def add_link (net : Network V) (node1 node2 : V) (cost : ℤ) :
    Except (Network V) (Network V) :=
  if node1 ∈ net.nodes then
    if node2 ∈ net.nodes then
      .ok { net with graph := add_link_graph net.graph node1 node2 cost }
    else
      .error { net with graph := funUpd net.graph node1 (dictSet (net.graph node1) node2 cost) }
  else
    .error net

/-- Method `initialize_tables(self)`: for each node, set its self-entry to
`(0, node)`. -/
def init_tables (net : Network V) : Network V :=
  { net with
    routing_tables :=
      net.nodes.foldl (fun rt node => rtSet rt node node ((0 : WithTop ℤ), some node))
        net.routing_tables }

/-- Body of the innermost loop of `update_routing`: for destination `dest`,
read the neighbor's current cost, form `new_cost = cost + current_cost`, and
overwrite `routing_tables[node][dest]` when strictly cheaper, setting the
`updated` flag. -/
def relaxDest (node neighbor : V) (cost : ℤ) (st : RT V × Bool) (dest : V) :
    RT V × Bool :=
  let current_cost := (st.1 neighbor dest).1
  let new_cost := (cost : WithTop ℤ) + current_cost
  if new_cost < (st.1 node dest).1 then
    (rtSet st.1 node dest (new_cost, some neighbor), true)
  else st

/-- Middle loop of `update_routing`: one `(neighbor, cost)` item of
`graph[node]`, iterating destinations over the keys of
`routing_tables[neighbor]`, which are exactly `nodes` in order. -/
def relaxNeighbor (dests : List V) (node : V) (st : RT V × Bool) (nc : V × ℤ) :
    RT V × Bool :=
  dests.foldl (relaxDest node nc.1 nc.2) st

/-- Outer loop body of `update_routing`: all items of `graph[node]`. -/
def relaxNode (g : V → List (V × ℤ)) (dests : List V) (st : RT V × Bool)
    (node : V) : RT V × Bool :=
  (g node).foldl (relaxNeighbor dests node) st

/-- Method `update_routing(self)`: the triple loop over
(node, neighbor item, destination), threading the mutable tables and the
`updated` flag; returns the new state and the flag. -/
def update_routing (net : Network V) : Network V × Bool :=
  let res := net.nodes.foldl (relaxNode net.graph net.nodes)
    (net.routing_tables, false)
  ({ net with routing_tables := res.1 }, res.2)

/-- State after `k` calls of `update_routing` (the loop of `simulate`,
without the printing). -/
def runRounds : ℕ → Network V → Network V
  | 0, net => net
  | k + 1, net => (update_routing (runRounds k net)).1

/-- A walk in the adjacency structure `g`, recording its vertex trace and
its total cost: `WalkT g S D l w` means `l` visits `S` first, `D` last,
follows edges of `g`, and the edge costs sum to `w`. -/
inductive WalkT (g : V → List (V × ℤ)) : V → V → List V → ℤ → Prop
  | nil (v : V) : WalkT g v v [v] 0
  | cons {S M D : V} {c w : ℤ} {l : List V} :
      (M, c) ∈ g S → WalkT g M D l w → WalkT g S D (S :: l) (c + w)

/-- Existence of a walk of cost `w` from `S` to `D`. -/
def HasWalk (g : V → List (V × ℤ)) (S D : V) (w : ℤ) : Prop :=
  ∃ l, WalkT g S D l w

/-! ### Generic lemmas about left folds -/

/-- A predicate preserved by every step of a fold is preserved by the fold. -/
theorem foldl_inv {α β : Type _} (f : β → α → β) (P : β → Prop) :
    ∀ (l : List α), (∀ b a, a ∈ l → P b → P (f b a)) → ∀ b, P b → P (l.foldl f b)
  | [], _, _, hb => hb
  | x :: xs, hf, b, hb => by
      simp only [List.foldl_cons]
      exact foldl_inv f P xs (fun b' a ha => hf b' a (List.mem_cons_of_mem _ ha)) _
        (hf b x (List.mem_cons_self _ _) hb)

/-- Once the `updated` flag is `true`, a flag-monotone fold keeps it `true`. -/
theorem foldl_flag {α γ : Type _} (f : γ × Bool → α → γ × Bool)
    (hf : ∀ st a, st.2 = true → (f st a).2 = true) :
    ∀ (l : List α) (st : γ × Bool), st.2 = true → (l.foldl f st).2 = true
  | [], _, h => h
  | x :: xs, st, h => by
      simp only [List.foldl_cons]
      exact foldl_flag f hf xs _ (hf st x h)

/-- If every step either leaves the state alone or raises the flag, a fold
ending with the flag down did nothing at all. -/
theorem foldl_false_noop {α γ : Type _} (f : γ × Bool → α → γ × Bool)
    (hor : ∀ st a, f st a = st ∨ (f st a).2 = true)
    (hf : ∀ st a, st.2 = true → (f st a).2 = true) :
    ∀ (l : List α) (st : γ × Bool), (l.foldl f st).2 = false → l.foldl f st = st
  | [], _, _ => rfl
  | x :: xs, st, h => by
      simp only [List.foldl_cons] at h ⊢
      rcases hor st x with h1 | h1
      · rw [h1] at h ⊢
        exact foldl_false_noop f hor hf xs st h
      · exact absurd (foldl_flag f hf xs _ h1) (by simp [h])

/-- If a fold ends with the flag down, then every single step, applied to the
start state, was a no-op. -/
theorem foldl_false_elem {α γ : Type _} (f : γ × Bool → α → γ × Bool)
    (hor : ∀ st a, f st a = st ∨ (f st a).2 = true)
    (hf : ∀ st a, st.2 = true → (f st a).2 = true) :
    ∀ (l : List α) (st : γ × Bool), (l.foldl f st).2 = false → ∀ a ∈ l, f st a = st
  | [], _, _ => by intro a ha; cases ha
  | x :: xs, st, h => by
      intro a ha
      simp only [List.foldl_cons] at h
      rcases hor st x with h1 | h1
      · rcases List.mem_cons.mp ha with rfl | ha'
        · exact h1
        · rw [h1] at h
          exact foldl_false_elem f hor hf xs st h a ha'
      · exact absurd (foldl_flag f hf xs _ h1) (by simp [h])

/-! ### Basic lemmas about `rtSet` and `relaxDest` -/

theorem rtSet_same (rt : RT V) (a b : V) (e : Entry V) : rtSet rt a b e a b = e := by
  simp [rtSet]

theorem rtSet_other (rt : RT V) (a b : V) (e : Entry V) (x y : V)
    (h : ¬(x = a ∧ y = b)) : rtSet rt a b e x y = rt x y := by
  simp only [rtSet, if_neg h]

/-- Full case analysis of one innermost-loop step. -/
theorem relaxDest_write (node nbr : V) (c : ℤ) (st : RT V × Bool) (dest : V) :
    (¬((c : WithTop ℤ) + (st.1 nbr dest).1 < (st.1 node dest).1) ∧
      relaxDest node nbr c st dest = st) ∨
    ((c : WithTop ℤ) + (st.1 nbr dest).1 < (st.1 node dest).1 ∧
      relaxDest node nbr c st dest =
        (rtSet st.1 node dest ((c : WithTop ℤ) + (st.1 nbr dest).1, some nbr), true)) := by
  by_cases h : (c : WithTop ℤ) + (st.1 nbr dest).1 < (st.1 node dest).1
  · right
    exact ⟨h, by simp [relaxDest, h]⟩
  · left
    exact ⟨h, by simp [relaxDest, h]⟩

theorem relaxDest_flag (node nbr : V) (c : ℤ) (st : RT V × Bool) (dest : V)
    (h : st.2 = true) : (relaxDest node nbr c st dest).2 = true := by
  rcases relaxDest_write node nbr c st dest with ⟨_, he⟩ | ⟨_, he⟩ <;> rw [he]
  exact h

theorem relaxDest_or (node nbr : V) (c : ℤ) (st : RT V × Bool) (dest : V) :
    relaxDest node nbr c st dest = st ∨ (relaxDest node nbr c st dest).2 = true := by
  rcases relaxDest_write node nbr c st dest with ⟨_, he⟩ | ⟨_, he⟩ <;> rw [he]
  · exact Or.inl rfl
  · exact Or.inr rfl

/-- A single relaxation step never increases any recorded cost. -/
theorem relaxDest_le (node nbr : V) (c : ℤ) (st : RT V × Bool) (dest : V) (x y : V) :
    ((relaxDest node nbr c st dest).1 x y).1 ≤ (st.1 x y).1 := by
  rcases relaxDest_write node nbr c st dest with ⟨_, he⟩ | ⟨hlt, he⟩ <;> rw [he]
  show ((rtSet st.1 node dest _ : RT V) x y).1 ≤ (st.1 x y).1
  by_cases hxy : x = node ∧ y = dest
  · obtain ⟨rfl, rfl⟩ := hxy
    rw [rtSet_same]
    exact le_of_lt hlt
  · rw [rtSet_other _ _ _ _ _ _ hxy]

/-- After the step for `(node, nbr, dest)` runs, the recorded cost of
`node → dest` is at most the link cost plus the neighbor's pre-step cost. -/
theorem relaxDest_bound (node nbr : V) (c : ℤ) (st : RT V × Bool) (dest : V) :
    ((relaxDest node nbr c st dest).1 node dest).1 ≤
      (c : WithTop ℤ) + (st.1 nbr dest).1 := by
  rcases relaxDest_write node nbr c st dest with ⟨hge, he⟩ | ⟨_, he⟩ <;> rw [he]
  · exact not_lt.mp hge
  · show ((rtSet st.1 node dest _ : RT V) node dest).1 ≤ _
    rw [rtSet_same]

/-! ### Composite-level lemmas for the three nested loops -/

theorem relaxNeighbor_flag (dests : List V) (node : V) (st : RT V × Bool)
    (nc : V × ℤ) (h : st.2 = true) : (relaxNeighbor dests node st nc).2 = true :=
  foldl_flag _ (fun st' d => relaxDest_flag node nc.1 nc.2 st' d) dests st h

theorem relaxNeighbor_or (dests : List V) (node : V) (st : RT V × Bool) (nc : V × ℤ) :
    relaxNeighbor dests node st nc = st ∨ (relaxNeighbor dests node st nc).2 = true := by
  cases h : (relaxNeighbor dests node st nc).2 with
  | true => exact Or.inr rfl
  | false =>
      exact Or.inl (foldl_false_noop _ (fun st' d => relaxDest_or node nc.1 nc.2 st' d)
        (fun st' d => relaxDest_flag node nc.1 nc.2 st' d) dests st h)

theorem relaxNode_flag (g : V → List (V × ℤ)) (dests : List V) (st : RT V × Bool)
    (node : V) (h : st.2 = true) : (relaxNode g dests st node).2 = true :=
  foldl_flag _ (fun st' nc => relaxNeighbor_flag dests node st' nc) (g node) st h

theorem relaxNode_or (g : V → List (V × ℤ)) (dests : List V) (st : RT V × Bool)
    (node : V) : relaxNode g dests st node = st ∨ (relaxNode g dests st node).2 = true := by
  cases h : (relaxNode g dests st node).2 with
  | true => exact Or.inr rfl
  | false =>
      exact Or.inl (foldl_false_noop _ (fun st' nc => relaxNeighbor_or dests node st' nc)
        (fun st' nc => relaxNeighbor_flag dests node st' nc) (g node) st h)

/-! ### `update_routing` leaves `nodes` and `graph` unchanged -/

@[simp] theorem update_routing_nodes (net : Network V) :
    (update_routing net).1.nodes = net.nodes := rfl

@[simp] theorem update_routing_graph (net : Network V) :
    (update_routing net).1.graph = net.graph := rfl

@[simp] theorem init_tables_nodes (net : Network V) :
    (init_tables net).nodes = net.nodes := rfl

@[simp] theorem init_tables_graph (net : Network V) :
    (init_tables net).graph = net.graph := rfl

@[simp] theorem runRounds_nodes (k : ℕ) (net : Network V) :
    (runRounds k net).nodes = net.nodes := by
  induction k with
  | zero => rfl
  | succ k ih => simp [runRounds, ih]

@[simp] theorem runRounds_graph (k : ℕ) (net : Network V) :
    (runRounds k net).graph = net.graph := by
  induction k with
  | zero => rfl
  | succ k ih => simp [runRounds, ih]

/-! ### Pointwise monotonicity of relaxation (costs never increase) -/

/-- Pointwise comparison of routing tables by recorded cost. -/
def rtLE (r s : RT V) : Prop := ∀ x y, (r x y).1 ≤ (s x y).1

theorem rtLE_refl (r : RT V) : rtLE r r := fun _ _ => le_refl _

theorem rtLE_trans {r s t : RT V} (h1 : rtLE r s) (h2 : rtLE s t) : rtLE r t :=
  fun x y => le_trans (h1 x y) (h2 x y)

theorem foldl_rtLE {α : Type _} (f : RT V × Bool → α → RT V × Bool)
    (hf : ∀ st a, rtLE (f st a).1 st.1) :
    ∀ (l : List α) (st : RT V × Bool), rtLE ((l.foldl f st).1) st.1
  | [], st => rtLE_refl _
  | x :: xs, st => by
      simp only [List.foldl_cons]
      exact rtLE_trans (foldl_rtLE f hf xs (f st x)) (hf st x)

theorem relaxNeighbor_le (dests : List V) (node : V) (st : RT V × Bool) (nc : V × ℤ) :
    rtLE (relaxNeighbor dests node st nc).1 st.1 :=
  foldl_rtLE _ (fun st' d x y => relaxDest_le node nc.1 nc.2 st' d x y) dests st

theorem relaxNode_le (g : V → List (V × ℤ)) (dests : List V) (st : RT V × Bool)
    (node : V) : rtLE (relaxNode g dests st node).1 st.1 :=
  foldl_rtLE _ (fun st' nc => relaxNeighbor_le dests node st' nc) (g node) st

/-- Core of claim C5: one full `update_routing` pass never increases any
recorded cost. -/
theorem update_routing_le (net : Network V) :
    rtLE (update_routing net).1.routing_tables net.routing_tables :=
  foldl_rtLE _ (fun st' node => relaxNode_le net.graph net.nodes st' node)
    net.nodes (net.routing_tables, false)

/-! ### The no-change state is a genuine fixed point -/

theorem update_routing_false_state (net : Network V)
    (h : (update_routing net).2 = false) : (update_routing net).1 = net := by
  have hres : net.nodes.foldl (relaxNode net.graph net.nodes)
      (net.routing_tables, false) = (net.routing_tables, false) :=
    foldl_false_noop _ (fun st' node => relaxNode_or net.graph net.nodes st' node)
      (fun st' node => relaxNode_flag net.graph net.nodes st' node) net.nodes _ h
  show { net with routing_tables := (net.nodes.foldl (relaxNode net.graph net.nodes)
      (net.routing_tables, false)).1 } = net
  rw [hres]

/-- Extraction of the fixed-point condition from a `False` return: for every
triple the script examines, the candidate path is not strictly cheaper. -/
theorem update_routing_false_cond (net : Network V)
    (h : (update_routing net).2 = false) :
    ∀ node ∈ net.nodes, ∀ nc ∈ net.graph node, ∀ dest ∈ net.nodes,
      ¬((nc.2 : WithTop ℤ) + (net.routing_tables nc.1 dest).1 <
        (net.routing_tables node dest).1) := by
  intro node hnode nc hnc dest hdest hlt
  have h0 : (net.nodes.foldl (relaxNode net.graph net.nodes)
      (net.routing_tables, false)).2 = false := h
  have h1 : relaxNode net.graph net.nodes (net.routing_tables, false) node =
      (net.routing_tables, false) :=
    foldl_false_elem _ (fun st' n => relaxNode_or net.graph net.nodes st' n)
      (fun st' n => relaxNode_flag net.graph net.nodes st' n) net.nodes _ h0 node hnode
  have h2 : relaxNeighbor net.nodes node (net.routing_tables, false) nc =
      (net.routing_tables, false) :=
    foldl_false_elem _ (fun st' n => relaxNeighbor_or net.nodes node st' n)
      (fun st' n => relaxNeighbor_flag net.nodes node st' n) (net.graph node) _
      (by rw [show (net.graph node).foldl (relaxNeighbor net.nodes node)
            (net.routing_tables, false) = (net.routing_tables, false) from h1]) nc hnc
  have h3 : relaxDest node nc.1 nc.2 (net.routing_tables, false) dest =
      (net.routing_tables, false) :=
    foldl_false_elem _ (fun st' d => relaxDest_or node nc.1 nc.2 st' d)
      (fun st' d => relaxDest_flag node nc.1 nc.2 st' d) net.nodes _
      (by rw [show net.nodes.foldl (relaxDest node nc.1 nc.2)
            (net.routing_tables, false) = (net.routing_tables, false) from h2]) dest hdest
  rcases relaxDest_write node nc.1 nc.2 (net.routing_tables, false) dest with
    ⟨hn, _⟩ | ⟨_, he⟩
  · exact hn hlt
  · rw [he] at h3
    exact absurd (congrArg Prod.snd h3) (by simp)

/-- Converse direction: if no triple admits a strictly cheaper candidate,
`update_routing` changes nothing and returns `False`. -/
theorem update_routing_of_cond (net : Network V)
    (hc : ∀ node ∈ net.nodes, ∀ nc ∈ net.graph node, ∀ dest ∈ net.nodes,
      ¬((nc.2 : WithTop ℤ) + (net.routing_tables nc.1 dest).1 <
        (net.routing_tables node dest).1)) :
    update_routing net = ({ net with routing_tables := net.routing_tables }, false) := by
  have hfold : net.nodes.foldl (relaxNode net.graph net.nodes)
      (net.routing_tables, false) = (net.routing_tables, false) := by
    refine foldl_inv _ (fun st => st = (net.routing_tables, false)) net.nodes ?_ _ rfl
    intro b node hnode hb
    subst hb
    refine foldl_inv _ (fun st => st = (net.routing_tables, false)) (net.graph node) ?_ _ rfl
    intro b nc hnc hb
    subst hb
    refine foldl_inv _ (fun st => st = (net.routing_tables, false)) net.nodes ?_ _ rfl
    intro b dest hdest hb
    subst hb
    rcases relaxDest_write node nc.1 nc.2 (net.routing_tables, false) dest with
      ⟨_, he⟩ | ⟨hlt, _⟩
    · exact he
    · exact absurd hlt (hc node hnode nc hnc dest hdest)
  show ({ net with routing_tables := (net.nodes.foldl (relaxNode net.graph net.nodes)
      (net.routing_tables, false)).1 }, (net.nodes.foldl (relaxNode net.graph net.nodes)
      (net.routing_tables, false)).2) = _
  rw [hfold]

/-! ### Generic invariant preservation through rounds -/

/-- Any property of the tables preserved by each innermost relaxation step
(over the triples the script visits) is preserved by one full round. -/
theorem update_routing_inv (net : Network V) (P : RT V → Prop)
    (hstep : ∀ (st : RT V × Bool) (node : V), node ∈ net.nodes →
      ∀ nc ∈ net.graph node, ∀ dest ∈ net.nodes,
        P st.1 → P (relaxDest node nc.1 nc.2 st dest).1)
    (h : P net.routing_tables) : P (update_routing net).1.routing_tables := by
  show P (net.nodes.foldl (relaxNode net.graph net.nodes) (net.routing_tables, false)).1
  refine foldl_inv _ (fun st : RT V × Bool => P st.1) net.nodes ?_ _ h
  intro b node hnode hb
  refine foldl_inv _ (fun st : RT V × Bool => P st.1) (net.graph node) ?_ _ hb
  intro b' nc hnc hb'
  refine foldl_inv _ (fun st : RT V × Bool => P st.1) net.nodes ?_ _ hb'
  intro b'' dest hdest hb''
  exact hstep b'' node hnode nc hnc dest hdest hb''

/-- Iterated form of `update_routing_inv`. -/
theorem runRounds_inv (net : Network V) (P : RT V → Prop)
    (hstep : ∀ (st : RT V × Bool) (node : V), node ∈ net.nodes →
      ∀ nc ∈ net.graph node, ∀ dest ∈ net.nodes,
        P st.1 → P (relaxDest node nc.1 nc.2 st dest).1)
    (h : P net.routing_tables) : ∀ k, P (runRounds k net).routing_tables
  | 0 => h
  | k + 1 => by
      show P (update_routing (runRounds k net)).1.routing_tables
      refine update_routing_inv _ P ?_ (runRounds_inv net P hstep h k)
      simp only [runRounds_nodes, runRounds_graph]
      exact hstep

/-! ### The concrete invariants -/

/-- All recorded costs are non-negative. -/
def NonnegRT (rt : RT V) : Prop := ∀ x y : V, 0 ≤ (rt x y).1

/-- Every configured node records `(0, itself)` for itself. -/
def SelfInv (nodes : List V) (rt : RT V) : Prop :=
  ∀ X ∈ nodes, rt X X = ((0 : WithTop ℤ), some X)

/-- Every entry is either the untouched sentinel, an initialized self-entry,
or a finite cost witnessed by a link to the recorded next hop followed by an
actual walk in the graph.  This is the inductive strength needed for the
shortest-path and unreachability claims. -/
def EntryOK (g : V → List (V × ℤ)) (rt : RT V) : Prop :=
  ∀ S D : V, rt S D = (⊤, none) ∨
    (S = D ∧ rt S D = ((0 : WithTop ℤ), some S)) ∨
    (∃ (d : ℤ) (M : V) (cM w : ℤ), rt S D = ((d : WithTop ℤ), some M) ∧
      (M, cM) ∈ g S ∧ HasWalk g M D w ∧ d = cM + w)

/-- A finite entry is realised by an actual walk of exactly that cost. -/
theorem EntryOK.hasWalk {g : V → List (V × ℤ)} {rt : RT V} (h : EntryOK g rt)
    (S D : V) (hne : (rt S D).1 ≠ ⊤) :
    ∃ w : ℤ, (rt S D).1 = (w : WithTop ℤ) ∧ HasWalk g S D w := by
  rcases h S D with h1 | ⟨rfl, h2⟩ | ⟨d, M, cM, w, h3, hM, ⟨l, hw⟩, rfl⟩
  · exact absurd (by rw [h1]) hne
  · refine ⟨0, by rw [h2]; exact WithTop.coe_zero.symm, [S], WalkT.nil S⟩
  · exact ⟨cM + w, by rw [h3], S :: l, WalkT.cons hM hw⟩

/-- Non-negativity of link costs in an adjacency structure. -/
def NonnegG (g : V → List (V × ℤ)) : Prop := ∀ n : V, ∀ p ∈ g n, 0 ≤ p.2

/-- Every listed neighbor is a configured node. -/
def WFGraph (nodes : List V) (g : V → List (V × ℤ)) : Prop :=
  ∀ n : V, ∀ p ∈ g n, p.1 ∈ nodes

/-- Pointwise characterization of one relaxation step: every cell is either
untouched, or it is the target cell and receives the candidate entry, which
was strictly cheaper. -/
theorem relaxDest_rt (node nbr : V) (c : ℤ) (st : RT V × Bool) (dest x y : V) :
    (relaxDest node nbr c st dest).1 x y = st.1 x y ∨
    (x = node ∧ y = dest ∧
      (relaxDest node nbr c st dest).1 x y =
        ((c : WithTop ℤ) + (st.1 nbr dest).1, some nbr) ∧
      (c : WithTop ℤ) + (st.1 nbr dest).1 < (st.1 node dest).1) := by
  rcases relaxDest_write node nbr c st dest with ⟨_, he⟩ | ⟨hlt, he⟩
  · rw [he]
    exact Or.inl rfl
  · by_cases hxy : x = node ∧ y = dest
    · obtain ⟨hx, hy⟩ := hxy
      refine Or.inr ⟨hx, hy, ?_, hlt⟩
      rw [he, hx, hy]
      exact rtSet_same _ _ _ _
    · left
      rw [he]
      exact rtSet_other _ _ _ _ _ _ hxy

theorem nonnegRT_step (net : Network V) (hg : NonnegG net.graph) :
    ∀ (st : RT V × Bool) (node : V), node ∈ net.nodes →
      ∀ nc ∈ net.graph node, ∀ dest ∈ net.nodes,
        NonnegRT st.1 → NonnegRT (relaxDest node nc.1 nc.2 st dest).1 := by
  intro st node _ nc hnc dest _ hP x y
  rcases relaxDest_rt node nc.1 nc.2 st dest x y with heq | ⟨_, _, heq, _⟩ <;> rw [heq]
  · exact hP x y
  · show (0 : WithTop ℤ) ≤ (nc.2 : WithTop ℤ) + (st.1 nc.1 dest).1
    refine add_nonneg ?_ (hP nc.1 dest)
    exact_mod_cast WithTop.coe_le_coe.mpr (hg node nc hnc)

theorem selfInv_step (net : Network V) (hg : NonnegG net.graph) :
    ∀ (st : RT V × Bool) (node : V), node ∈ net.nodes →
      ∀ nc ∈ net.graph node, ∀ dest ∈ net.nodes,
        (NonnegRT st.1 ∧ SelfInv net.nodes st.1) →
          NonnegRT (relaxDest node nc.1 nc.2 st dest).1 ∧
          SelfInv net.nodes (relaxDest node nc.1 nc.2 st dest).1 := by
  intro st node hnode nc hnc dest hdest hP
  refine ⟨nonnegRT_step net hg st node hnode nc hnc dest hdest hP.1, ?_⟩
  intro X hX
  rcases relaxDest_rt node nc.1 nc.2 st dest X X with heq | ⟨hx, hy, _, hlt⟩
  · rw [heq]
    exact hP.2 X hX
  · rw [← hx, ← hy, hP.2 X hX] at hlt
    have h0 : (0 : WithTop ℤ) ≤ (nc.2 : WithTop ℤ) + (st.1 nc.1 X).1 := by
      refine add_nonneg ?_ (hP.1 nc.1 X)
      exact_mod_cast WithTop.coe_le_coe.mpr (hg node nc hnc)
    have h0' : (((0 : WithTop ℤ), some X) : Entry V).1 ≤
        (nc.2 : WithTop ℤ) + (st.1 nc.1 X).1 := h0
    exact absurd hlt (not_lt.mpr h0')

theorem entryOK_step (net : Network V) :
    ∀ (st : RT V × Bool) (node : V), node ∈ net.nodes →
      ∀ nc ∈ net.graph node, ∀ dest ∈ net.nodes,
        EntryOK net.graph st.1 → EntryOK net.graph (relaxDest node nc.1 nc.2 st dest).1 := by
  intro st node _ nc hnc dest _ hP S D
  rcases relaxDest_rt node nc.1 nc.2 st dest S D with heq | ⟨hS, hD, heq, hlt⟩
  · rw [heq]
    exact hP S D
  · have hnetop : (nc.2 : WithTop ℤ) + (st.1 nc.1 dest).1 ≠ ⊤ := ne_top_of_lt hlt
    have hcur : (st.1 nc.1 dest).1 ≠ ⊤ := by
      intro hh
      rw [hh, add_top] at hnetop
      exact hnetop rfl
    obtain ⟨w, hw1, hw2⟩ := hP.hasWalk nc.1 dest hcur
    refine Or.inr (Or.inr ⟨nc.2 + w, nc.1, nc.2, w, ?_, ?_, ?_, rfl⟩)
    · rw [heq, hw1, ← WithTop.coe_add]
    · rw [hS]
      exact hnc
    · rw [hD]
      exact hw2

/-! ### Characterization of `initialize_tables` -/

theorem init_fold_other :
    ∀ (l : List V) (rt : RT V) (x y : V), (∀ n ∈ l, ¬(x = n ∧ y = n)) →
      (l.foldl (fun rt node => rtSet rt node node ((0 : WithTop ℤ), some node)) rt) x y
        = rt x y
  | [], _, _, _, _ => rfl
  | n :: ns, rt, x, y, h => by
      simp only [List.foldl_cons]
      rw [init_fold_other ns _ x y (fun m hm => h m (List.mem_cons_of_mem _ hm))]
      exact rtSet_other _ _ _ _ _ _ (h n (List.mem_cons_self _ _))

theorem init_fold_self :
    ∀ (l : List V) (rt : RT V) (X : V), X ∈ l →
      (l.foldl (fun rt node => rtSet rt node node ((0 : WithTop ℤ), some node)) rt) X X
        = ((0 : WithTop ℤ), some X)
  | [], _, X, hX => absurd hX (List.not_mem_nil X)
  | n :: ns, rt, X, hX => by
      simp only [List.foldl_cons]
      by_cases hmem : X ∈ ns
      · exact init_fold_self ns _ X hmem
      · have hXn : X = n := by
          rcases List.mem_cons.mp hX with h | h
          · exact h
          · exact absurd h hmem
        subst hXn
        rw [init_fold_other ns _ X X (fun m hm hand => hmem (hand.1 ▸ hm))]
        exact rtSet_same _ _ _ _

/-- What `initialize_tables` does to every cell. -/
theorem init_tables_rt (net : Network V) (x y : V) :
    (init_tables net).routing_tables x y =
      if x = y ∧ x ∈ net.nodes then ((0 : WithTop ℤ), some x)
      else net.routing_tables x y := by
  show (net.nodes.foldl _ net.routing_tables) x y = _
  by_cases h : x = y ∧ x ∈ net.nodes
  · obtain ⟨h1, h2⟩ := h
    subst h1
    rw [if_pos ⟨rfl, h2⟩]
    exact init_fold_self net.nodes net.routing_tables x h2
  · rw [if_neg h]
    refine init_fold_other net.nodes net.routing_tables x y ?_
    intro n hn hand
    exact h ⟨hand.1.trans hand.2.symm, hand.1 ▸ hn⟩

/-! ### The protocol invariants hold in every state of the simulation -/

/-- In any run that follows the documented lifecycle (fresh tables, then
`initialize_tables`, then rounds) over a graph with non-negative costs, the
three table invariants hold after every round. -/
theorem protocol_inv (net : Network V)
    (hfresh : net.routing_tables = fun _ _ => (⊤, none))
    (hg : NonnegG net.graph) (k : ℕ) :
    NonnegRT (runRounds k (init_tables net)).routing_tables ∧
    SelfInv net.nodes (runRounds k (init_tables net)).routing_tables ∧
    EntryOK net.graph (runRounds k (init_tables net)).routing_tables := by
  have hN : NonnegRT (init_tables net).routing_tables := by
    intro x y
    rw [init_tables_rt]
    split_ifs
    · exact le_refl _
    · rw [hfresh]
      exact le_top
  have hS : SelfInv net.nodes (init_tables net).routing_tables := by
    intro X hX
    rw [init_tables_rt, if_pos ⟨rfl, hX⟩]
  have hE : EntryOK net.graph (init_tables net).routing_tables := by
    intro S D
    rw [init_tables_rt]
    split_ifs with h
    · exact Or.inr (Or.inl ⟨h.1, by rw [h.1]⟩)
    · rw [hfresh]
      exact Or.inl rfl
  exact runRounds_inv (init_tables net)
    (fun rt => NonnegRT rt ∧ SelfInv net.nodes rt ∧ EntryOK net.graph rt)
    (fun st node hnode nc hnc dest hdest hP =>
      ⟨(selfInv_step net hg st node hnode nc hnc dest hdest ⟨hP.1, hP.2.1⟩).1,
       (selfInv_step net hg st node hnode nc hnc dest hdest ⟨hP.1, hP.2.1⟩).2,
       entryOK_step net st node hnode nc hnc dest hdest hP.2.2⟩)
    ⟨hN, hS, hE⟩ k

/-! ### Lower bound at a fixed point: recorded costs are at most walk costs -/

/-- At any state where `update_routing` would report no change, each recorded
cost is a lower bound on the cost of every walk between configured nodes. -/
theorem fix_le_walk (net : Network V)
    (hWF : WFGraph net.nodes net.graph)
    (hself : SelfInv net.nodes net.routing_tables)
    (hfix : ∀ node ∈ net.nodes, ∀ nc ∈ net.graph node, ∀ dest ∈ net.nodes,
      ¬((nc.2 : WithTop ℤ) + (net.routing_tables nc.1 dest).1 <
        (net.routing_tables node dest).1)) :
    ∀ (S D : V) (l : List V) (w : ℤ), WalkT net.graph S D l w →
      S ∈ net.nodes → D ∈ net.nodes →
      (net.routing_tables S D).1 ≤ (w : WithTop ℤ) := by
  intro S D l w hw
  induction hw with
  | nil v =>
      intro hv _
      rw [hself v hv]
      simp
  | @cons S M D c w' l' hM hsub ih =>
      intro hS hD
      have hMm : M ∈ net.nodes := hWF S (M, c) hM
      have h1 : (net.routing_tables S D).1 ≤
          (c : WithTop ℤ) + (net.routing_tables M D).1 :=
        not_lt.mp (hfix S hS (M, c) hM D hD)
      calc (net.routing_tables S D).1
          ≤ (c : WithTop ℤ) + (net.routing_tables M D).1 := h1
        _ ≤ (c : WithTop ℤ) + (w' : WithTop ℤ) := add_le_add_left (ih hMm hD) _
        _ = ((c + w' : ℤ) : WithTop ℤ) := (WithTop.coe_add c w').symm

/-! ### Walk surgery: splitting, splicing and shortening -/

theorem WalkT.inv {g : V → List (V × ℤ)} {S D : V} {l : List V} {w : ℤ}
    (h : WalkT g S D l w) :
    (S = D ∧ l = [S] ∧ w = 0) ∨
    (∃ (M : V) (c w' : ℤ) (t : List V), (M, c) ∈ g S ∧ WalkT g M D t w' ∧
      l = S :: t ∧ w = c + w') := by
  cases h with
  | nil v => exact Or.inl ⟨rfl, rfl, rfl⟩
  | cons h1 h2 => exact Or.inr ⟨_, _, _, _, h1, h2, rfl, rfl⟩

theorem WalkT.head_eq {g : V → List (V × ℤ)} {S D : V} {l : List V} {w : ℤ}
    (h : WalkT g S D l w) : ∃ t, l = S :: t := by
  rcases h.inv with ⟨_, hl, _⟩ | ⟨_, _, _, t, _, _, hl, _⟩
  · exact ⟨[], hl⟩
  · exact ⟨t, hl⟩

theorem WalkT.cost_nonneg {g : V → List (V × ℤ)} (hg : NonnegG g) :
    ∀ {S D : V} {l : List V} {w : ℤ}, WalkT g S D l w → 0 ≤ w := by
  intro S D l w h
  induction h with
  | nil v => exact le_refl 0
  | @cons S M D c w' l' hM _ ih => exact add_nonneg (hg S (M, c) hM) ih

theorem WalkT.trace_subset {nodes : List V} {g : V → List (V × ℤ)}
    (hWF : WFGraph nodes g) :
    ∀ {S D : V} {l : List V} {w : ℤ}, WalkT g S D l w → S ∈ nodes →
      ∀ x ∈ l, x ∈ nodes := by
  intro S D l w h
  induction h with
  | nil v =>
      intro hv x hx
      rw [List.mem_singleton.mp hx]
      exact hv
  | @cons S M D c w' l' hM hsub ih =>
      intro hS x hx
      rcases List.mem_cons.mp hx with rfl | hx'
      · exact hS
      · exact ih (hWF S (M, c) hM) x hx'

/-- A walk whose trace passes through `x` splits into a walk to `x` and a
walk from `x`, with costs adding up. -/
theorem walk_split {g : V → List (V × ℤ)} :
    ∀ (l1 : List V) (S x D : V) (l2 : List V) (w : ℤ),
      WalkT g S D (l1 ++ x :: l2) w →
      ∃ w1 w2, WalkT g S x (l1 ++ [x]) w1 ∧ WalkT g x D (x :: l2) w2 ∧ w = w1 + w2
  | [], S, x, D, l2, w, h => by
      obtain ⟨t, ht⟩ := h.head_eq
      have hx : x = S := by
        have := congrArg (fun l => l.head?) ht
        simpa using this
      subst hx
      exact ⟨0, w, WalkT.nil x, h, (zero_add w).symm⟩
  | a :: l1, S, x, D, l2, w, h => by
      rcases h.inv with ⟨_, heq, _⟩ | ⟨M, c, w', t, hM, hsub, heq, hw⟩
      · exact absurd (congrArg List.tail heq) (by simp)
      · have ha : a = S := by
          have := congrArg (fun l => l.head?) heq
          simpa using this
        have ht : t = l1 ++ x :: l2 := by
          have h2 := congrArg List.tail heq
          simp at h2
          exact h2.symm
        subst ha
        rw [ht] at hsub
        obtain ⟨w1, w2, hW1, hW2, hsum⟩ := walk_split l1 M x D l2 w' hsub
        refine ⟨c + w1, w2, WalkT.cons hM hW1, hW2, ?_⟩
        rw [hw, hsum]
        ring

/-- Two walks meeting at `x` splice into one walk, with costs adding up. -/
theorem walk_splice {g : V → List (V × ℤ)} :
    ∀ (l1 : List V) (S x D : V) (l3 : List V) (w1 w3 : ℤ),
      WalkT g S x (l1 ++ [x]) w1 → WalkT g x D (x :: l3) w3 →
      WalkT g S D (l1 ++ x :: l3) (w1 + w3)
  | [], S, x, D, l3, w1, w3, h1, h3 => by
      rcases h1.inv with ⟨hSx, _, hw⟩ | ⟨M, c, w', t, _, hsub, heq, _⟩
      · subst hSx
        rw [hw, zero_add]
        exact h3
      · have ht : t = [] := by
          have := congrArg List.tail heq
          simpa using this
        obtain ⟨t', ht'⟩ := hsub.head_eq
        rw [ht] at ht'
        exact absurd ht' (by simp)
  | a :: l1, S, x, D, l3, w1, w3, h1, h3 => by
      rcases h1.inv with ⟨_, heq, _⟩ | ⟨M, c, w', t, hM, hsub, heq, hw⟩
      · exact absurd (congrArg List.tail heq) (by simp)
      · have ha : a = S := by
          have := congrArg (fun l => l.head?) heq
          simpa using this
        have ht : t = l1 ++ [x] := by
          have h2 := congrArg List.tail heq
          simp at h2
          exact h2.symm
        subst ha
        rw [ht] at hsub
        have hrec := walk_splice l1 M x D l3 w' w3 hsub h3
        have hcost : w1 + w3 = c + (w' + w3) := by
          rw [hw]
          ring
        rw [hcost]
        exact WalkT.cons hM hrec

/-- A list that is not `Nodup` contains an explicit repeated element. -/
theorem not_nodup_split {l : List V} (h : ¬l.Nodup) :
    ∃ (x : V) (l1 l2 l3 : List V), l = l1 ++ (x :: (l2 ++ (x :: l3))) := by
  induction l with
  | nil => exact absurd List.nodup_nil h
  | cons a t ih =>
      by_cases ha : a ∈ t
      · obtain ⟨s1, s2, hs⟩ := List.append_of_mem ha
        exact ⟨a, [], s1, s2, by rw [hs]; rfl⟩
      · have hnt : ¬t.Nodup := fun hnd => h (List.nodup_cons.mpr ⟨ha, hnd⟩)
        obtain ⟨x, l1, l2, l3, rfl⟩ := ih hnt
        exact ⟨x, a :: l1, l2, l3, rfl⟩

/-- Any walk between configured nodes can be shortened, without increasing
its cost, to one whose trace fits inside the node list (at most
`nodes.length` vertices, i.e. at most `nodes.length - 1` edges). -/
theorem walk_shorten {g : V → List (V × ℤ)} (hg : NonnegG g)
    (nodes : List V) (hnd : nodes.Nodup) :
    ∀ (n : ℕ) (l : List V) (S D : V) (w : ℤ), l.length ≤ n →
      WalkT g S D l w → (∀ x ∈ l, x ∈ nodes) →
      ∃ l' w', WalkT g S D l' w' ∧ l'.length ≤ nodes.length ∧ w' ≤ w
  | 0, l, S, D, w, hn, hw, _ => by
      obtain ⟨t, ht⟩ := hw.head_eq
      rw [ht] at hn
      exact absurd hn (by simp)
  | n + 1, l, S, D, w, hn, hw, hsub => by
      by_cases hlen : l.length ≤ nodes.length
      · exact ⟨l, w, hw, hlen, le_refl w⟩
      · have hnotnd : ¬l.Nodup := by
          intro hnd_l
          exact hlen ((List.subperm_of_subset hnd_l hsub).length_le)
        obtain ⟨x, l1, l2, l3, rfl⟩ := not_nodup_split hnotnd
        obtain ⟨w1, w2, hW1, hW2, hsum⟩ := walk_split l1 S x D (l2 ++ x :: l3) w hw
        obtain ⟨wa, wb, hWa, hWb, hsum2⟩ := walk_split (x :: l2) x x D l3 w2 hW2
        have hjoin := walk_splice l1 S x D l3 w1 wb hW1 hWb
        have hlt : (l1 ++ x :: l3).length ≤ n := by
          have h1 : (l1 ++ (x :: (l2 ++ (x :: l3)))).length ≤ n + 1 := hn
          simp at h1 ⊢
          omega
        have hsub' : ∀ y ∈ l1 ++ x :: l3, y ∈ nodes := by
          intro y hy
          refine hsub y ?_
          rcases List.mem_append.mp hy with h1 | h1
          · exact List.mem_append.mpr (Or.inl h1)
          · rcases List.mem_cons.mp h1 with rfl | h2
            · exact List.mem_append.mpr (Or.inr (List.mem_cons_self _ _))
            · refine List.mem_append.mpr (Or.inr ?_)
              refine List.mem_cons_of_mem _ (List.mem_append.mpr (Or.inr ?_))
              exact List.mem_cons_of_mem _ h2
        obtain ⟨l', w', hW', hlen', hle'⟩ :=
          walk_shorten hg nodes hnd n (l1 ++ x :: l3) S D (w1 + wb) hlt hjoin hsub'
        refine ⟨l', w', hW', hlen', ?_⟩
        have h0a : 0 ≤ wa := hWa.cost_nonneg hg
        omega

/-! ### One round relaxes every visited triple (Bellman–Ford step bound) -/

theorem foldl_relaxDest_bound :
    ∀ (dests : List V) (node nbr : V) (c : ℤ) (st : RT V × Bool), ∀ dest ∈ dests,
      ((dests.foldl (relaxDest node nbr c) st).1 node dest).1 ≤
        (c : WithTop ℤ) + (st.1 nbr dest).1
  | [], _, _, _, _, _, h => absurd h (List.not_mem_nil _)
  | d :: ds, node, nbr, c, st, dest, h => by
      simp only [List.foldl_cons]
      rcases List.mem_cons.mp h with rfl | h'
      · have hrest := foldl_rtLE (relaxDest node nbr c)
          (fun st' d' => relaxDest_le node nbr c st' d') ds (relaxDest node nbr c st dest)
        exact le_trans (hrest node dest) (relaxDest_bound node nbr c st dest)
      · have hmono := relaxDest_le node nbr c st d nbr dest
        exact le_trans (foldl_relaxDest_bound ds node nbr c _ dest h')
          (add_le_add_left hmono _)

theorem foldl_relaxNeighbor_bound :
    ∀ (edges : List (V × ℤ)) (dests : List V) (node : V) (st : RT V × Bool),
      ∀ nc ∈ edges, ∀ dest ∈ dests,
      ((edges.foldl (relaxNeighbor dests node) st).1 node dest).1 ≤
        (nc.2 : WithTop ℤ) + (st.1 nc.1 dest).1
  | [], _, _, _, _, h, _, _ => absurd h (List.not_mem_nil _)
  | e :: es, dests, node, st, nc, h, dest, hd => by
      simp only [List.foldl_cons]
      rcases List.mem_cons.mp h with rfl | h'
      · have hrest := foldl_rtLE (relaxNeighbor dests node)
          (fun st' e' => relaxNeighbor_le dests node st' e') es (relaxNeighbor dests node st nc)
        exact le_trans (hrest node dest) (foldl_relaxDest_bound dests node nc.1 nc.2 st dest hd)
      · have hmono := relaxNeighbor_le dests node st e nc.1 dest
        exact le_trans (foldl_relaxNeighbor_bound es dests node _ nc h' dest hd)
          (add_le_add_left hmono _)

theorem foldl_relaxNode_bound (g : V → List (V × ℤ)) :
    ∀ (ns : List V) (dests : List V) (st : RT V × Bool),
      ∀ node ∈ ns, ∀ nc ∈ g node, ∀ dest ∈ dests,
      ((ns.foldl (relaxNode g dests) st).1 node dest).1 ≤
        (nc.2 : WithTop ℤ) + (st.1 nc.1 dest).1
  | [], _, _, _, h, _, _, _, _ => absurd h (List.not_mem_nil _)
  | n :: ns, dests, st, node, h, nc, hnc, dest, hd => by
      simp only [List.foldl_cons]
      rcases List.mem_cons.mp h with rfl | h'
      · have hrest := foldl_rtLE (relaxNode g dests)
          (fun st' n' => relaxNode_le g dests st' n') ns (relaxNode g dests st node)
        exact le_trans (hrest node dest)
          (foldl_relaxNeighbor_bound (g node) dests node st nc hnc dest hd)
      · have hmono := relaxNode_le g dests st n nc.1 dest
        exact le_trans (foldl_relaxNode_bound g ns dests _ node h' nc hnc dest hd)
          (add_le_add_left hmono _)

/-- After one full round, each visited triple's relaxation is reflected:
the new cost `node → dest` is at most link cost plus the neighbor's
pre-round cost. -/
theorem update_routing_bound (net : Network V) :
    ∀ node ∈ net.nodes, ∀ nc ∈ net.graph node, ∀ dest ∈ net.nodes,
      ((update_routing net).1.routing_tables node dest).1 ≤
        (nc.2 : WithTop ℤ) + (net.routing_tables nc.1 dest).1 := by
  intro node hnode nc hnc dest hdest
  exact foldl_relaxNode_bound net.graph net.nodes net.nodes
    (net.routing_tables, false) node hnode nc hnc dest hdest

/-- After `k` rounds from initialization, every walk of at most `k` edges
bounds the corresponding recorded cost (the classical Bellman–Ford
round invariant; in-place updates only accelerate it). -/
theorem runRounds_le_walk (net : Network V)
    (hfresh : net.routing_tables = fun _ _ => (⊤, none))
    (hg : NonnegG net.graph) (hWF : WFGraph net.nodes net.graph) :
    ∀ (k : ℕ) (S D : V) (l : List V) (w : ℤ), WalkT net.graph S D l w →
      l.length ≤ k + 1 → S ∈ net.nodes → D ∈ net.nodes →
      ((runRounds k (init_tables net)).routing_tables S D).1 ≤ (w : WithTop ℤ) := by
  intro k
  induction k with
  | zero =>
      intro S D l w hw hlen hS hD
      rcases hw.inv with ⟨hSD, _, hw0⟩ | ⟨M, c, w', t, _, hsub, heq, _⟩
      · subst hSD
        rw [hw0]
        have hself := (protocol_inv net hfresh hg 0).2.1
        rw [hself S hS]
        simp
      · obtain ⟨t', ht'⟩ := hsub.head_eq
        rw [heq, ht'] at hlen
        exact absurd hlen (by simp)
  | succ k ih =>
      intro S D l w hw hlen hS hD
      rcases hw.inv with ⟨hSD, _, hw0⟩ | ⟨M, c, w', t, hM, hsub, heq, hwc⟩
      · subst hSD
        rw [hw0]
        have hself := (protocol_inv net hfresh hg (k + 1)).2.1
        rw [hself S hS]
        simp
      · have hMm : M ∈ net.nodes := hWF S (M, c) hM
        have htlen : t.length ≤ k + 1 := by
          rw [heq] at hlen
          simpa using hlen
        have hk := ih M D t w' hsub htlen hMm hD
        have hbound : ((runRounds (k + 1) (init_tables net)).routing_tables S D).1 ≤
            (c : WithTop ℤ) +
              ((runRounds k (init_tables net)).routing_tables M D).1 := by
          show ((update_routing (runRounds k (init_tables net))).1.routing_tables S D).1 ≤ _
          have := update_routing_bound (runRounds k (init_tables net))
          rw [runRounds_nodes, runRounds_graph] at this
          exact this S hS (M, c) hM D hD
        rw [hwc]
        calc ((runRounds (k + 1) (init_tables net)).routing_tables S D).1
            ≤ (c : WithTop ℤ) +
              ((runRounds k (init_tables net)).routing_tables M D).1 := hbound
          _ ≤ (c : WithTop ℤ) + (w' : WithTop ℤ) := add_le_add_left hk _
          _ = ((c + w' : ℤ) : WithTop ℤ) := (WithTop.coe_add c w').symm

/-! ### Convergence within `nodes.length - 1` rounds -/

/-- After `nodes.length - 1` rounds, no visited triple admits a strictly
cheaper candidate any more. -/
theorem converged_cond (net : Network V)
    (hfresh : net.routing_tables = fun _ _ => (⊤, none))
    (hg : NonnegG net.graph) (hWF : WFGraph net.nodes net.graph)
    (hnd : net.nodes.Nodup) :
    ∀ node ∈ net.nodes, ∀ nc ∈ net.graph node, ∀ dest ∈ net.nodes,
      ¬((nc.2 : WithTop ℤ) +
          ((runRounds (net.nodes.length - 1) (init_tables net)).routing_tables
            nc.1 dest).1 <
        ((runRounds (net.nodes.length - 1) (init_tables net)).routing_tables
          node dest).1) := by
  intro node hnode nc hnc dest hdest
  by_cases htop : ((runRounds (net.nodes.length - 1) (init_tables net)).routing_tables
      nc.1 dest).1 = ⊤
  · rw [htop, add_top]
    exact not_top_lt
  · have hE := (protocol_inv net hfresh hg (net.nodes.length - 1)).2.2
    obtain ⟨w, hw1, l, hwalk⟩ := hE.hasWalk nc.1 dest htop
    have hwalk2 : WalkT net.graph node dest (node :: l) (nc.2 + w) :=
      WalkT.cons hnc hwalk
    have hsub : ∀ x ∈ node :: l, x ∈ net.nodes :=
      WalkT.trace_subset hWF hwalk2 hnode
    obtain ⟨l', w', hW', hlen', hle'⟩ := walk_shorten hg net.nodes hnd
      (node :: l).length (node :: l) node dest (nc.2 + w) (le_refl _) hwalk2 hsub
    have hNpos : 1 ≤ net.nodes.length := List.length_pos_of_mem hnode
    have hlen2 : l'.length ≤ (net.nodes.length - 1) + 1 := by omega
    have hb := runRounds_le_walk net hfresh hg hWF (net.nodes.length - 1)
      node dest l' w' hW' hlen2 hnode hdest
    refine not_lt.mpr ?_
    calc ((runRounds (net.nodes.length - 1) (init_tables net)).routing_tables
          node dest).1
        ≤ (w' : WithTop ℤ) := hb
      _ ≤ ((nc.2 + w : ℤ) : WithTop ℤ) := WithTop.coe_le_coe.mpr hle'
      _ = (nc.2 : WithTop ℤ) + (w : WithTop ℤ) := WithTop.coe_add nc.2 w
      _ = (nc.2 : WithTop ℤ) +
          ((runRounds (net.nodes.length - 1) (init_tables net)).routing_tables
            nc.1 dest).1 := by rw [hw1]

/-- Core of claim C2: over a graph with non-negative costs and duplicate-free
nodes, the state after `nodes.length - 1` rounds makes `update_routing`
return `False`. -/
theorem converged_at_bound (net : Network V)
    (hfresh : net.routing_tables = fun _ _ => (⊤, none))
    (hg : NonnegG net.graph) (hWF : WFGraph net.nodes net.graph)
    (hnd : net.nodes.Nodup) :
    (update_routing (runRounds (net.nodes.length - 1) (init_tables net))).2 = false := by
  have h := update_routing_of_cond (runRounds (net.nodes.length - 1) (init_tables net)) ?_
  · rw [h]
  · simp only [runRounds_nodes, runRounds_graph, init_tables_nodes, init_tables_graph]
    exact converged_cond net hfresh hg hWF hnd

/-! ### Correctness at any reached fixed point -/

/-- Core of claim C1 (cost part): in any state of the documented lifecycle on
which `update_routing` reports no change, the recorded cost of every
reachable pair is exactly the least walk cost. -/
theorem fixpoint_cost (net : Network V)
    (hfresh : net.routing_tables = fun _ _ => (⊤, none))
    (hg : NonnegG net.graph) (hWF : WFGraph net.nodes net.graph)
    (k : ℕ) (hconv : (update_routing (runRounds k (init_tables net))).2 = false)
    (S D : V) (hS : S ∈ net.nodes) (hD : D ∈ net.nodes)
    (w0 : ℤ) (hreach : HasWalk net.graph S D w0) :
    ∃ d : ℤ, ((runRounds k (init_tables net)).routing_tables S D).1 = (d : WithTop ℤ) ∧
      HasWalk net.graph S D d ∧ ∀ w, HasWalk net.graph S D w → d ≤ w := by
  have hfix := update_routing_false_cond (runRounds k (init_tables net)) hconv
  rw [runRounds_nodes, runRounds_graph, init_tables_nodes, init_tables_graph] at hfix
  have hself : SelfInv net.nodes (runRounds k (init_tables net)).routing_tables :=
    (protocol_inv net hfresh hg k).2.1
  have hlower : ∀ (S' D' : V) (l : List V) (w : ℤ),
      WalkT net.graph S' D' l w → S' ∈ net.nodes → D' ∈ net.nodes →
      ((runRounds k (init_tables net)).routing_tables S' D').1 ≤ (w : WithTop ℤ) := by
    have h := fix_le_walk (runRounds k (init_tables net)) ?_ ?_ ?_
    · rw [runRounds_graph, init_tables_graph] at h
      simp only [runRounds_nodes, init_tables_nodes] at h
      exact h
    · rw [runRounds_nodes, runRounds_graph, init_tables_nodes, init_tables_graph]
      exact hWF
    · rw [runRounds_nodes, init_tables_nodes]
      exact hself
    · rw [runRounds_nodes, runRounds_graph, init_tables_nodes, init_tables_graph]
      exact hfix
  obtain ⟨l0, hl0⟩ := hreach
  have h1 := hlower S D l0 w0 hl0 hS hD
  have hne : ((runRounds k (init_tables net)).routing_tables S D).1 ≠ ⊤ := by
    intro hh
    rw [hh] at h1
    exact absurd (top_le_iff.mp h1) WithTop.coe_ne_top
  have hE : EntryOK net.graph (runRounds k (init_tables net)).routing_tables :=
    (protocol_inv net hfresh hg k).2.2
  obtain ⟨d, hd1, hd2⟩ := hE.hasWalk S D hne
  refine ⟨d, hd1, hd2, ?_⟩
  intro w hw
  obtain ⟨l, hl⟩ := hw
  have h2 := hlower S D l w hl hS hD
  rw [hd1] at h2
  exact WithTop.coe_le_coe.mp h2

/-- Core of claim C1 (next-hop part): at such a fixed point, the recorded
next hop `M` of a reachable pair with `S ≠ D` is a neighbor of `S` and
satisfies `graph[S][M] + routing_tables[M][D].cost = routing_tables[S][D].cost`. -/
theorem fixpoint_nexthop (net : Network V)
    (hfresh : net.routing_tables = fun _ _ => (⊤, none))
    (hg : NonnegG net.graph) (hWF : WFGraph net.nodes net.graph)
    (k : ℕ) (hconv : (update_routing (runRounds k (init_tables net))).2 = false)
    (S D : V) (hS : S ∈ net.nodes) (hD : D ∈ net.nodes) (hSD : S ≠ D)
    (w0 : ℤ) (hreach : HasWalk net.graph S D w0) :
    ∃ (M : V) (cM : ℤ),
      ((runRounds k (init_tables net)).routing_tables S D).2 = some M ∧
      (M, cM) ∈ net.graph S ∧
      (cM : WithTop ℤ) + ((runRounds k (init_tables net)).routing_tables M D).1 =
        ((runRounds k (init_tables net)).routing_tables S D).1 := by
  have hfix := update_routing_false_cond (runRounds k (init_tables net)) hconv
  rw [runRounds_nodes, runRounds_graph, init_tables_nodes, init_tables_graph] at hfix
  have hself : SelfInv net.nodes (runRounds k (init_tables net)).routing_tables :=
    (protocol_inv net hfresh hg k).2.1
  have hlower : ∀ (S' D' : V) (l : List V) (w : ℤ),
      WalkT net.graph S' D' l w → S' ∈ net.nodes → D' ∈ net.nodes →
      ((runRounds k (init_tables net)).routing_tables S' D').1 ≤ (w : WithTop ℤ) := by
    have h := fix_le_walk (runRounds k (init_tables net)) ?_ ?_ ?_
    · rw [runRounds_graph, init_tables_graph] at h
      simp only [runRounds_nodes, init_tables_nodes] at h
      exact h
    · rw [runRounds_nodes, runRounds_graph, init_tables_nodes, init_tables_graph]
      exact hWF
    · rw [runRounds_nodes, init_tables_nodes]
      exact hself
    · rw [runRounds_nodes, runRounds_graph, init_tables_nodes, init_tables_graph]
      exact hfix
  obtain ⟨l0, hl0⟩ := hreach
  have h1 := hlower S D l0 w0 hl0 hS hD
  have hne : ((runRounds k (init_tables net)).routing_tables S D).1 ≠ ⊤ := by
    intro hh
    rw [hh] at h1
    exact absurd (top_le_iff.mp h1) WithTop.coe_ne_top
  have hE : EntryOK net.graph (runRounds k (init_tables net)).routing_tables :=
    (protocol_inv net hfresh hg k).2.2
  rcases hE S D with h2 | ⟨h2, _⟩ | ⟨d, M, cM, w, he, hM, hwMD, hsum⟩
  · exact absurd (by rw [h2]) hne
  · exact absurd h2 hSD
  · have hMm : M ∈ net.nodes := hWF S (M, cM) hM
    refine ⟨M, cM, by rw [he], hM, ?_⟩
    have hge : ((runRounds k (init_tables net)).routing_tables S D).1 ≤
        (cM : WithTop ℤ) + ((runRounds k (init_tables net)).routing_tables M D).1 :=
      not_lt.mp (hfix S hS (M, cM) hM D hD)
    obtain ⟨lMD, hlMD⟩ := hwMD
    have hMDle := hlower M D lMD w hlMD hMm hD
    have hle : (cM : WithTop ℤ) +
        ((runRounds k (init_tables net)).routing_tables M D).1 ≤
        ((runRounds k (init_tables net)).routing_tables S D).1 := by
      calc (cM : WithTop ℤ) + ((runRounds k (init_tables net)).routing_tables M D).1
          ≤ (cM : WithTop ℤ) + (w : WithTop ℤ) := add_le_add_left hMDle _
        _ = ((cM + w : ℤ) : WithTop ℤ) := (WithTop.coe_add cM w).symm
        _ = ((d : ℤ) : WithTop ℤ) := by rw [hsum]
        _ = ((runRounds k (init_tables net)).routing_tables S D).1 := by rw [he]
    exact le_antisymm hle hge

/-! ### Unreachable pairs keep the sentinel -/

/-- Pairs with no connecting walk still hold the untouched sentinel. -/
def UnreachInv (g : V → List (V × ℤ)) (rt : RT V) : Prop :=
  ∀ S D : V, ¬(∃ w, HasWalk g S D w) → rt S D = (⊤, none)

theorem unreachInv_step (net : Network V) :
    ∀ (st : RT V × Bool) (node : V), node ∈ net.nodes →
      ∀ nc ∈ net.graph node, ∀ dest ∈ net.nodes,
        UnreachInv net.graph st.1 →
          UnreachInv net.graph (relaxDest node nc.1 nc.2 st dest).1 := by
  intro st node _ nc hnc dest _ hP S D hur
  rcases relaxDest_rt node nc.1 nc.2 st dest S D with heq | ⟨hS, hD, heq, hlt⟩
  · rw [heq]
    exact hP S D hur
  · exfalso
    have hnetop : (nc.2 : WithTop ℤ) + (st.1 nc.1 dest).1 ≠ ⊤ := ne_top_of_lt hlt
    have hcur : (st.1 nc.1 dest).1 ≠ ⊤ := by
      intro hh
      rw [hh, add_top] at hnetop
      exact hnetop rfl
    have hnbr : ¬(st.1 nc.1 dest = (⊤, none)) := by
      intro hh
      rw [hh] at hcur
      exact hcur rfl
    have hreachN : ∃ w, HasWalk net.graph nc.1 dest w := by
      by_contra hcon
      exact hnbr (hP nc.1 dest hcon)
    obtain ⟨w, l, hw⟩ := hreachN
    refine hur ⟨nc.2 + w, node :: l, ?_⟩
    rw [hS, hD]
    exact WalkT.cons hnc hw

/-- Core of claim C8: from fresh tables, entries of pairs with no connecting
walk stay `(⊤, none)` after initialization and any number of rounds. -/
theorem unreachable_core (net : Network V)
    (hfresh : net.routing_tables = fun _ _ => (⊤, none)) (k : ℕ) (S D : V)
    (hur : ¬(∃ w, HasWalk net.graph S D w)) :
    (runRounds k (init_tables net)).routing_tables S D = (⊤, none) := by
  have hbase : UnreachInv net.graph (init_tables net).routing_tables := by
    intro S' D' hur'
    rw [init_tables_rt]
    split_ifs with h
    · exfalso
      exact hur' ⟨0, [S'], h.1 ▸ WalkT.nil S'⟩
    · rw [hfresh]
  exact runRounds_inv (init_tables net) (UnreachInv net.graph)
    (unreachInv_step net) hbase k S D hur

/-! ### Self-entry stability (claim C4) -/

/-- From any non-negative table state, initializing and then running any
number of rounds keeps every configured node's self-entry at `(0, itself)`. -/
theorem self_entry_core (net : Network V) (hg : NonnegG net.graph)
    (hrt : NonnegRT net.routing_tables) (k : ℕ) :
    NonnegRT (runRounds k (init_tables net)).routing_tables ∧
    SelfInv net.nodes (runRounds k (init_tables net)).routing_tables := by
  have hN : NonnegRT (init_tables net).routing_tables := by
    intro x y
    rw [init_tables_rt]
    split_ifs
    · exact le_refl _
    · exact hrt x y
  have hS : SelfInv net.nodes (init_tables net).routing_tables := by
    intro X hX
    rw [init_tables_rt, if_pos ⟨rfl, hX⟩]
  exact runRounds_inv (init_tables net)
    (fun rt => NonnegRT rt ∧ SelfInv net.nodes rt)
    (fun st node hnode nc hnc dest hdest hP =>
      selfInv_step net hg st node hnode nc hnc dest hdest hP)
    ⟨hN, hS⟩ k

/-! ### `add_link`: dictionary and key-set lemmas -/

theorem dictSet_mem_inv {l : List (V × ℤ)} {k : V} {v : ℤ} {p : V × ℤ}
    (h : p ∈ dictSet l k v) : p ∈ l ∨ p = (k, v) := by
  unfold dictSet at h
  split_ifs at h with hk
  · obtain ⟨q, hq, hq2⟩ := List.mem_map.mp h
    by_cases hq1 : q.1 = k
    · rw [if_pos hq1] at hq2
      exact Or.inr hq2.symm
    · rw [if_neg hq1] at hq2
      exact Or.inl (hq2 ▸ hq)
  · rcases List.mem_append.mp h with h1 | h1
    · exact Or.inl h1
    · exact Or.inr (List.mem_singleton.mp h1)

theorem dictSet_keys {l : List (V × ℤ)} {M : V} {c : ℤ} (h : (M, c) ∈ l)
    (k : V) (v : ℤ) : ∃ c', (M, c') ∈ dictSet l k v := by
  unfold dictSet
  split_ifs with hk
  · by_cases hMk : M = k
    · obtain ⟨p, hp, hp1⟩ := List.any_eq_true.mp hk
      have hp1' : p.1 = k := of_decide_eq_true hp1
      refine ⟨v, List.mem_map.mpr ⟨p, hp, ?_⟩⟩
      rw [if_pos hp1', hMk]
    · refine ⟨c, List.mem_map.mpr ⟨(M, c), h, ?_⟩⟩
      exact if_neg hMk
  · exact ⟨c, List.mem_append.mpr (Or.inl h)⟩

/-- Successful `add_link` calls: both endpoints are configured, routing
tables are untouched, and the graph receives the two symmetric entries. -/
theorem add_link_ok {net net' : Network V} {n1 n2 : V} {c : ℤ}
    (h : add_link net n1 n2 c = Except.ok net') :
    n1 ∈ net.nodes ∧ n2 ∈ net.nodes ∧ net'.nodes = net.nodes ∧
    net'.routing_tables = net.routing_tables ∧
    net'.graph = add_link_graph net.graph n1 n2 c := by
  unfold add_link at h
  split_ifs at h with h1 h2
  have h' := Except.ok.inj h
  subst h'
  exact ⟨h1, h2, rfl, rfl, rfl⟩

/-- Failed `add_link` calls: the error state has the same nodes and tables;
the graph is unchanged when `node1` is unknown, and has gained exactly the
entry `graph[node1][node2] = cost` when only `node2` is unknown. -/
theorem add_link_error {net net' : Network V} {n1 n2 : V} {c : ℤ}
    (h : add_link net n1 n2 c = Except.error net') :
    net'.nodes = net.nodes ∧ net'.routing_tables = net.routing_tables ∧
    ((n1 ∉ net.nodes ∧ net' = net) ∨
     (n1 ∈ net.nodes ∧ n2 ∉ net.nodes ∧
      net'.graph = funUpd net.graph n1 (dictSet (net.graph n1) n2 c))) := by
  unfold add_link at h
  split_ifs at h with h1 h2
  · have h' := Except.error.inj h
    subst h'
    exact ⟨rfl, rfl, Or.inr ⟨h1, h2, rfl⟩⟩
  · have h' := Except.error.inj h
    subst h'
    exact ⟨rfl, rfl, Or.inl ⟨h1, rfl⟩⟩

/-- Updating one node's dict never removes keys from any node's dict. -/
theorem funUpd_dictSet_keys (g : V → List (V × ℤ)) (a k : V) (v : ℤ)
    (N M : V) (cM : ℤ) (h : (M, cM) ∈ g N) :
    ∃ c', (M, c') ∈ funUpd g a (dictSet (g a) k v) N := by
  unfold funUpd
  split_ifs with hN
  · subst hN
    exact dictSet_keys h k v
  · exact ⟨cM, h⟩

/-- Key sets of the per-node adjacency dicts only grow under `add_link`. -/
theorem add_link_keys_mono {net net' : Network V} {n1 n2 : V} {c : ℤ}
    (h : add_link net n1 n2 c = Except.ok net') (N M : V) (cM : ℤ)
    (hm : (M, cM) ∈ net.graph N) : ∃ c', (M, c') ∈ net'.graph N := by
  obtain ⟨_, _, _, _, hgraph⟩ := add_link_ok h
  rw [hgraph]
  unfold add_link_graph
  obtain ⟨c', hc'⟩ := funUpd_dictSet_keys net.graph n1 n2 c N M cM hm
  exact funUpd_dictSet_keys _ n2 n1 c N M c' hc'

/-! ### States reachable through the API (claim C9) -/

/-- Engine states produced by `__init__` followed by any sequence of
successful `add_link`, `initialize_tables` and `update_routing` calls. -/
inductive Reachable : Network V → Prop
  | construct (nodes : List V) : Reachable (Network.mkNet nodes)
  | addLink {net net' : Network V} {n1 n2 : V} {c : ℤ} :
      Reachable net → add_link net n1 n2 c = Except.ok net' → Reachable net'
  | initStep {net : Network V} : Reachable net → Reachable (init_tables net)
  | updateStep {net : Network V} : Reachable net → Reachable (update_routing net).1

/-- Recorded next hops of non-self entries are direct neighbors. -/
def NextHopInv (net : Network V) : Prop :=
  ∀ N D M : V, N ≠ D → (net.routing_tables N D).2 = some M →
    ∃ c, (M, c) ∈ net.graph N

/-- Core of claim C9: the next-hop invariant holds in every reachable
state. -/
theorem reachable_nexthop {net : Network V} (h : Reachable net) :
    NextHopInv net := by
  induction h with
  | construct nodes =>
      intro N D M _ hM
      exact absurd hM (by simp [Network.mkNet])
  | @addLink net net' n1 n2 c _ hok ih =>
      intro N D M hND hM
      obtain ⟨_, _, _, hrt, _⟩ := add_link_ok hok
      rw [hrt] at hM
      obtain ⟨cM, hcM⟩ := ih N D M hND hM
      exact add_link_keys_mono hok N M cM hcM
  | @initStep net _ ih =>
      intro N D M hND hM
      rw [init_tables_rt] at hM
      rw [if_neg (fun hand => hND hand.1)] at hM
      exact ih N D M hND hM
  | @updateStep net _ ih =>
      intro N D M hND hM
      show ∃ c, (M, c) ∈ net.graph N
      revert hM
      show (((update_routing net).1.routing_tables) N D).2 = some M → _
      intro hM
      have hinv : (fun rt : RT V => ∀ N' D' M' : V, N' ≠ D' → (rt N' D').2 = some M' →
          ∃ c, (M', c) ∈ net.graph N') (update_routing net).1.routing_tables := by
        refine update_routing_inv net
          (fun rt : RT V => ∀ N' D' M' : V, N' ≠ D' → (rt N' D').2 = some M' →
            ∃ c, (M', c) ∈ net.graph N') ?_ ih
        intro st node _ nc hnc dest _ hP N' D' M' hND' hM'
        rcases relaxDest_rt node nc.1 nc.2 st dest N' D' with heq | ⟨hS, _, heq, _⟩
        · rw [heq] at hM'
          exact hP N' D' M' hND' hM'
        · rw [heq] at hM'
          have hM'' : nc.1 = M' := by simpa using hM'
          rw [hS, ← hM'']
          exact ⟨nc.2, hnc⟩
      exact hinv N D M hND hM

/-! ### Building a network by a sequence of `add_link` calls -/

/-- One step of the link-registration sequence of the script: a failed call
aborts the construction (the raised `KeyError` propagates). -/
def linkStep (r : Except (Network V) (Network V)) (t : V × V × ℤ) :
    Except (Network V) (Network V) :=
  r.bind fun n => add_link n t.1 t.2.1 t.2.2

/-- Membership in the graph after `add_link` comes from the old graph or is
one of the two new symmetric entries. -/
theorem add_link_graph_mem {g : V → List (V × ℤ)} {n1 n2 n : V} {c : ℤ}
    {p : V × ℤ} (h : p ∈ add_link_graph g n1 n2 c n) :
    (∃ m, p ∈ g m) ∨ p = (n1, c) ∨ p = (n2, c) := by
  unfold add_link_graph funUpd at h
  by_cases hn2 : n = n2
  · rw [if_pos hn2] at h
    rcases dictSet_mem_inv h with h' | h'
    · by_cases hn21 : n2 = n1
      · rw [if_pos hn21] at h'
        rcases dictSet_mem_inv h' with h'' | h''
        · exact Or.inl ⟨n1, h''⟩
        · exact Or.inr (Or.inr h'')
      · rw [if_neg hn21] at h'
        exact Or.inl ⟨n2, h'⟩
    · exact Or.inr (Or.inl h')
  · rw [if_neg hn2] at h
    by_cases hn1 : n = n1
    · rw [if_pos hn1] at h
      rcases dictSet_mem_inv h with h' | h'
      · exact Or.inl ⟨n1, h'⟩
      · exact Or.inr (Or.inr h')
    · rw [if_neg hn1] at h
      exact Or.inl ⟨n, h⟩

/-- A successful `add_link` with non-negative cost preserves the graph
well-formedness properties. -/
theorem add_link_preserves {net net' : Network V} {n1 n2 : V} {c : ℤ}
    (h : add_link net n1 n2 c = Except.ok net') (hc : 0 ≤ c)
    (hg : NonnegG net.graph) (hWF : WFGraph net.nodes net.graph) :
    NonnegG net'.graph ∧ WFGraph net'.nodes net'.graph ∧
    net'.nodes = net.nodes ∧ net'.routing_tables = net.routing_tables := by
  obtain ⟨h1, h2, hnodes, hrt, hgraph⟩ := add_link_ok h
  refine ⟨?_, ?_, hnodes, hrt⟩
  · intro n p hp
    rw [hgraph] at hp
    rcases add_link_graph_mem hp with ⟨m, hm⟩ | hp1 | hp1
    · exact hg m p hm
    · rw [hp1]
      exact hc
    · rw [hp1]
      exact hc
  · intro n p hp
    rw [hgraph] at hp
    rw [hnodes]
    rcases add_link_graph_mem hp with ⟨m, hm⟩ | hp1 | hp1
    · exact hWF m p hm
    · rw [hp1]
      exact h1
    · rw [hp1]
      exact h2

/-- Registering a list of non-negative links on a freshly constructed
engine yields a well-formed graph over the same nodes with untouched
(all-infinite) routing tables. -/
theorem build_props (nodes0 : List V) (links : List (V × V × ℤ))
    (hpos : ∀ t ∈ links, 0 ≤ t.2.2) {net : Network V}
    (h : links.foldl linkStep (Except.ok (Network.mkNet nodes0)) = Except.ok net) :
    NonnegG net.graph ∧ WFGraph net.nodes net.graph ∧ net.nodes = nodes0 ∧
      net.routing_tables = (fun _ _ => ((⊤ : WithTop ℤ), none)) := by
  have hP := foldl_inv linkStep
    (fun r => ∀ n0, r = Except.ok n0 → NonnegG n0.graph ∧ WFGraph n0.nodes n0.graph ∧
      n0.nodes = nodes0 ∧ n0.routing_tables = (fun _ _ => ((⊤ : WithTop ℤ), none)))
    links ?_ (Except.ok (Network.mkNet nodes0)) ?_
  · exact hP net h
  · intro r t ht hPr n0 hok
    cases r with
    | error e => exact absurd hok (by simp [linkStep, Except.bind])
    | ok n =>
        have hok' : add_link n t.1 t.2.1 t.2.2 = Except.ok n0 := hok
        obtain ⟨hgN, hWFN, hnodesN, hrtN⟩ := hPr n rfl
        obtain ⟨hg', hWF', hnodes', hrt'⟩ :=
          add_link_preserves hok' (hpos t ht) hgN hWFN
        exact ⟨hg', hWF', hnodes'.trans hnodesN, hrt'.trans hrtN⟩
  · intro n0 h0
    have h0' := Except.ok.inj h0
    subst h0'
    refine ⟨?_, ?_, rfl, rfl⟩
    · intro n p hp
      exact absurd hp (List.not_mem_nil p)
    · intro n p hp
      exact absurd hp (List.not_mem_nil p)

/-! ### The concrete 8-node network of the script -/

def scriptNodes : List Char := ['A', 'B', 'C', 'D', 'E', 'F', 'G', 'H']

def scriptLinks : List (Char × Char × ℤ) :=
  [('A', 'B', 2), ('A', 'D', 6), ('A', 'E', 3), ('B', 'E', 1), ('B', 'C', 2),
   ('C', 'E', 3), ('C', 'H', 1), ('D', 'E', 2), ('E', 'F', 3), ('E', 'H', 4),
   ('F', 'G', 2), ('G', 'H', 2)]

/-- The twelve `network.add_link(...)` calls of the script. -/
def buildRes : Except (Network Char) (Network Char) :=
  scriptLinks.foldl linkStep (Except.ok (Network.mkNet scriptNodes))

def exOk {α β : Type} : Except α β → Bool
  | Except.ok _ => true
  | Except.error _ => false

/-- The `network` object of the script after all `add_link` calls. -/
def scriptNet : Network Char :=
  match buildRes with
  | Except.ok n => n
  | Except.error n => n

theorem buildRes_ok : buildRes = Except.ok scriptNet := by
  cases hb : buildRes with
  | ok n =>
      have : scriptNet = n := by
        unfold scriptNet
        rw [hb]
      rw [this]
  | error e =>
      have hT : exOk buildRes = true := by decide
      rw [hb] at hT
      exact absurd hT (by simp [exOk])

theorem scriptNet_props : NonnegG scriptNet.graph ∧
    WFGraph scriptNet.nodes scriptNet.graph ∧ scriptNet.nodes = scriptNodes ∧
    scriptNet.routing_tables = (fun _ _ => ((⊤ : WithTop ℤ), none)) :=
  build_props scriptNodes scriptLinks (by decide) buildRes_ok

/-! ### A potential-function certificate for shortest distances -/

/-- A potential bounded by every edge relaxation bounds every walk cost from
below by the potential difference of its endpoints. -/
theorem walk_ge_phi {g : V → List (V × ℤ)} {nodes : List V}
    (hWF : WFGraph nodes g) (φ : V → ℤ)
    (hedge : ∀ u ∈ nodes, ∀ p ∈ g u, φ u ≤ p.2 + φ p.1) :
    ∀ {S D : V} {l : List V} {w : ℤ}, WalkT g S D l w → S ∈ nodes →
      φ S - φ D ≤ w := by
  intro S D l w h
  induction h with
  | nil v =>
      intro _
      simp
  | @cons S M D c w' l' hM hsub ih =>
      intro hS
      have h1 : φ S ≤ c + φ M := hedge S hS (M, c) hM
      have h2 : φ M - φ D ≤ w' := ih (hWF S (M, c) hM)
      omega

/-- Exact distance-to-`H` values in the script's topology, used as the
certificate that no walk from `A` to `H` costs less than 5. -/
def phiH : Char → ℤ := fun x =>
  if x = 'A' then 5 else if x = 'B' then 3 else if x = 'C' then 1
  else if x = 'D' then 6 else if x = 'E' then 4 else if x = 'F' then 4
  else if x = 'G' then 2 else 0

theorem scriptNet_phiH_edges :
    ∀ u ∈ scriptNet.nodes, ∀ p ∈ scriptNet.graph u, phiH u ≤ p.2 + phiH p.1 := by
  decide

theorem walkABCH : HasWalk scriptNet.graph 'A' 'H' 5 := by
  refine ⟨['A', 'B', 'C', 'H'], ?_⟩
  have h0 : WalkT scriptNet.graph 'H' 'H' ['H'] 0 := WalkT.nil 'H'
  have h1 : WalkT scriptNet.graph 'C' 'H' ['C', 'H'] (1 + 0) :=
    WalkT.cons (by decide) h0
  have h2 : WalkT scriptNet.graph 'B' 'H' ['B', 'C', 'H'] (2 + (1 + 0)) :=
    WalkT.cons (by decide) h1
  have h3 : WalkT scriptNet.graph 'A' 'H' ['A', 'B', 'C', 'H'] (2 + (2 + (1 + 0))) :=
    WalkT.cons (by decide) h2
  have h5 : (5 : ℤ) = 2 + (2 + (1 + 0)) := by norm_num
  rw [h5]
  exact h3

theorem scriptNet_AH_lower (w : ℤ) (hw : HasWalk scriptNet.graph 'A' 'H' w) :
    5 ≤ w := by
  obtain ⟨l, hl⟩ := hw
  have h := walk_ge_phi scriptNet_props.2.1 phiH scriptNet_phiH_edges hl (by decide)
  have hA : phiH 'A' = 5 := by decide
  have hH : phiH 'H' = 0 := by decide
  omega

/-- At any fixed point reached by the script's simulation, the recorded
`A → H` cost is exactly 5. -/
theorem scriptNet_AH_at_fix (k : ℕ)
    (hconv : (update_routing (runRounds k (init_tables scriptNet))).2 = false) :
    ((runRounds k (init_tables scriptNet)).routing_tables 'A' 'H').1 =
      ((5 : ℤ) : WithTop ℤ) := by
  obtain ⟨hg, hWF, _, hfresh⟩ := scriptNet_props
  obtain ⟨d, hd1, hd2, hd3⟩ := fixpoint_cost scriptNet hfresh hg hWF k hconv
    'A' 'H' (by decide) (by decide) 5 walkABCH
  have h5 : d = 5 := le_antisymm (hd3 5 walkABCH) (scriptNet_AH_lower d hd2)
  rw [hd1, h5]

/-- The script's simulation does converge: after `8 - 1 = 7` rounds the next
`update_routing` call returns `False`. -/
theorem scriptNet_converges :
    (update_routing (runRounds 7 (init_tables scriptNet))).2 = false := by
  obtain ⟨hg, hWF, _, hfresh⟩ := scriptNet_props
  have h := converged_at_bound scriptNet hfresh hg hWF
    (by rw [scriptNet_props.2.2.1]; decide)
  have h7 : scriptNet.nodes.length - 1 = 7 := by
    rw [scriptNet_props.2.2.1]
    decide
  rw [h7] at h
  exact h

/-! ## The claims -/

/-- C1: at convergence (a lifecycle state on which `update_routing` returns
`False`), for every engine over a graph with non-negative costs and every
pair `(S, D)` with `D` reachable from `S`, `routing_tables[S][D]` records a
cost equal to the true shortest-path distance (it is attained by a walk and
is a lower bound on all walk costs), and for distinct pairs the recorded
next hop `M` is a neighbor with
`graph[S][M] + routing_tables[M][D].cost = routing_tables[S][D].cost`.
(For `S = D` the entry is `(0, S)` and Python's `graph[S][S]` does not
exist, so the next-hop clause is read for distinct pairs.) -/
theorem claim_C1 (net : Network V)
    (hfresh : net.routing_tables = fun _ _ => (⊤, none))
    (hg : NonnegG net.graph) (hWF : WFGraph net.nodes net.graph)
    (k : ℕ) (hconv : (update_routing (runRounds k (init_tables net))).2 = false)
    (S D : V) (hS : S ∈ net.nodes) (hD : D ∈ net.nodes)
    (w0 : ℤ) (hreach : HasWalk net.graph S D w0) :
    (∃ d : ℤ,
      ((runRounds k (init_tables net)).routing_tables S D).1 = (d : WithTop ℤ) ∧
      HasWalk net.graph S D d ∧ ∀ w, HasWalk net.graph S D w → d ≤ w) ∧
    (S ≠ D → ∃ (M : V) (cM : ℤ),
      ((runRounds k (init_tables net)).routing_tables S D).2 = some M ∧
      (M, cM) ∈ net.graph S ∧
      (cM : WithTop ℤ) + ((runRounds k (init_tables net)).routing_tables M D).1 =
        ((runRounds k (init_tables net)).routing_tables S D).1) :=
  ⟨fixpoint_cost net hfresh hg hWF k hconv S D hS hD w0 hreach,
   fun hSD => fixpoint_nexthop net hfresh hg hWF k hconv S D hS hD hSD w0 hreach⟩

theorem claim_C1_witness :
    (∃ d : ℤ,
      ((runRounds 0 (init_tables (Network.mkNet [0]))).routing_tables 0 0).1 =
        (d : WithTop ℤ) ∧
      HasWalk (Network.mkNet [0] : Network ℕ).graph 0 0 d ∧
      ∀ w, HasWalk (Network.mkNet [0] : Network ℕ).graph 0 0 w → d ≤ w) ∧
    ((0 : ℕ) ≠ 0 → ∃ (M : ℕ) (cM : ℤ),
      ((runRounds 0 (init_tables (Network.mkNet [0]))).routing_tables 0 0).2 = some M ∧
      (M, cM) ∈ (Network.mkNet [0] : Network ℕ).graph 0 ∧
      (cM : WithTop ℤ) +
          ((runRounds 0 (init_tables (Network.mkNet [0]))).routing_tables M 0).1 =
        ((runRounds 0 (init_tables (Network.mkNet [0]))).routing_tables 0 0).1) :=
  claim_C1 (Network.mkNet [0]) rfl
    (fun _ p hp => absurd hp (List.not_mem_nil p))
    (fun _ p hp => absurd hp (List.not_mem_nil p))
    0 (by decide) 0 0 (by decide) (by decide) 0 ⟨[0], WalkT.nil 0⟩

/-- C2: for every engine over a connected graph with non-negative costs,
duplicate-free node list and `N` nodes, after `initialize_tables` the state
reached by `N - 1` calls of `update_routing` is converged: the next call
returns `False`.  (The proof does not even need connectivity; the
hypothesis is kept to mirror the claim.) -/
theorem claim_C2 (net : Network V)
    (hfresh : net.routing_tables = fun _ _ => (⊤, none))
    (hg : NonnegG net.graph) (hWF : WFGraph net.nodes net.graph)
    (hnd : net.nodes.Nodup)
    (hconn : ∀ S ∈ net.nodes, ∀ D ∈ net.nodes, ∃ w, HasWalk net.graph S D w) :
    (update_routing (runRounds (net.nodes.length - 1) (init_tables net))).2 = false :=
  converged_at_bound net hfresh hg hWF hnd

theorem claim_C2_witness :
    (update_routing (runRounds ((Network.mkNet [0] : Network ℕ).nodes.length - 1)
      (init_tables (Network.mkNet [0])))).2 = false :=
  claim_C2 (Network.mkNet [0]) rfl
    (fun _ p hp => absurd hp (List.not_mem_nil p))
    (fun _ p hp => absurd hp (List.not_mem_nil p))
    (by decide)
    (fun S hS D hD => by
      rw [List.mem_singleton.mp hS, List.mem_singleton.mp hD]
      exact ⟨0, [0], WalkT.nil 0⟩)

/-- C3 counterexample: the script's 8-node engine reaches a fixed point
(after 7 rounds the next call returns `False`) at which
`routing_tables['A']['H']` records cost 5, not 6 as the claim states. -/
theorem claim_C3_counterexample :
    (update_routing (runRounds 7 (init_tables scriptNet))).2 = false ∧
    ((runRounds 7 (init_tables scriptNet)).routing_tables 'A' 'H').1 ≠
      ((6 : ℤ) : WithTop ℤ) := by
  refine ⟨scriptNet_converges, ?_⟩
  rw [scriptNet_AH_at_fix 7 scriptNet_converges]
  intro h
  exact absurd (WithTop.coe_inj.mp h) (by norm_num)

/-- C3 (amended): for the concrete 8-node engine of the script, at any fixed
point reached by iterating `update_routing` after initialization,
`routing_tables['A']['H']` records cost 5 (the true shortest distance,
along A-B-C-H). -/
theorem claim_C3 (k : ℕ)
    (hconv : (update_routing (runRounds k (init_tables scriptNet))).2 = false) :
    ((runRounds k (init_tables scriptNet)).routing_tables 'A' 'H').1 =
      ((5 : ℤ) : WithTop ℤ) :=
  scriptNet_AH_at_fix k hconv

theorem claim_C3_witness :
    ((runRounds 7 (init_tables scriptNet)).routing_tables 'A' 'H').1 =
      ((5 : ℤ) : WithTop ℤ) :=
  claim_C3 7 scriptNet_converges

/-- C4: for every engine over a graph with non-negative costs (and the
non-negative tables every reachable engine state has), after
`initialize_tables` every configured node's self-entry is `(0, itself)` and
stays so across any number of `update_routing` rounds. -/
theorem claim_C4 (net : Network V) (hg : NonnegG net.graph)
    (hrt : NonnegRT net.routing_tables) (k : ℕ) (X : V) (hX : X ∈ net.nodes) :
    (runRounds k (init_tables net)).routing_tables X X = ((0 : WithTop ℤ), some X) :=
  (self_entry_core net hg hrt k).2 X hX

theorem claim_C4_witness :
    (runRounds 1 (init_tables (Network.mkNet [0]))).routing_tables 0 0 =
      ((0 : WithTop ℤ), some (0 : ℕ)) :=
  claim_C4 (Network.mkNet [0])
    (fun _ p hp => absurd hp (List.not_mem_nil p))
    (fun _ _ => le_top) 1 0 (by decide)

/-- C5: a single `update_routing` call never increases any recorded cost:
for every engine and every (source, destination) pair the cost after the
call is at most the cost before it. -/
theorem claim_C5 (net : Network V) (S D : V) :
    ((update_routing net).1.routing_tables S D).1 ≤ (net.routing_tables S D).1 :=
  update_routing_le net S D

/-- C6: a state on which `update_routing` returns `False` is an idempotent
fixed point: calling it again also returns `False` and leaves every routing
table entry unchanged. -/
theorem claim_C6 (net : Network V) (h : (update_routing net).2 = false) :
    (update_routing (update_routing net).1).2 = false ∧
    ∀ S D : V, (update_routing (update_routing net).1).1.routing_tables S D =
      (update_routing net).1.routing_tables S D := by
  have heq := update_routing_false_state net h
  rw [heq]
  exact ⟨h, fun S D => by rw [heq]⟩

theorem claim_C6_witness :
    (update_routing (update_routing (Network.mkNet [0] : Network ℕ)).1).2 = false ∧
    ∀ S D : ℕ,
      (update_routing (update_routing (Network.mkNet [0] : Network ℕ)).1).1.routing_tables
          S D =
        (update_routing (Network.mkNet [0] : Network ℕ)).1.routing_tables S D :=
  claim_C6 (Network.mkNet [0]) (by decide)

/-- State of the script's `Network` object after the failing call
`add_link('A', 'Z', 1)` on a two-node engine (the value carried by the
raised `KeyError`). -/
def c7state : Network Char :=
  match add_link (Network.mkNet ['A', 'B']) 'A' 'Z' 1 with
  | Except.ok n => n
  | Except.error n => n

/-- C7 counterexample: `add_link('A', 'Z', 1)` on the engine with nodes
`['A', 'B']` does raise (no `.ok` result), but the engine's topology is NOT
left as it was: `graph['A']` has gained the entry `('Z', 1)` before the
`KeyError` on `graph['Z']` is raised. -/
theorem claim_C7_counterexample :
    exOk (add_link (Network.mkNet ['A', 'B']) 'A' 'Z' 1) = false ∧
    c7state.graph 'A' = [('Z', 1)] ∧
    (Network.mkNet ['A', 'B'] : Network Char).graph 'A' = [] ∧
    c7state.graph 'A' ≠ (Network.mkNet ['A', 'B'] : Network Char).graph 'A' := by
  decide

/-- C7 (amended): `add_link(node1, node2, cost)` with an unknown endpoint
always signals an error (a `KeyError`), never an `.ok`; the nodes and all
routing tables are untouched; when `node1` is unknown the whole state is
untouched, but when `node1` is known (so `node2` is the unknown one) the
error state has `graph[node1]` already updated with the `node2` entry —
the operation is not atomic. -/
theorem claim_C7 (net : Network V) (n1 n2 : V) (c : ℤ)
    (h : n1 ∉ net.nodes ∨ n2 ∉ net.nodes) :
    ∃ e, add_link net n1 n2 c = Except.error e ∧
      e.nodes = net.nodes ∧ e.routing_tables = net.routing_tables ∧
      (n1 ∉ net.nodes → e = net) ∧
      (n1 ∈ net.nodes →
        e.graph = funUpd net.graph n1 (dictSet (net.graph n1) n2 c)) := by
  by_cases h1 : n1 ∈ net.nodes
  · have h2 : n2 ∉ net.nodes := by
      rcases h with h | h
      · exact absurd h1 h
      · exact h
    refine ⟨{ net with graph := funUpd net.graph n1 (dictSet (net.graph n1) n2 c) },
      ?_, rfl, rfl, fun hn1 => absurd h1 hn1, fun _ => rfl⟩
    unfold add_link
    rw [if_pos h1, if_neg h2]
  · refine ⟨net, ?_, rfl, rfl, fun _ => rfl, fun hn1 => absurd hn1 h1⟩
    unfold add_link
    rw [if_neg h1]

theorem claim_C7_witness :
    ∃ e, add_link (Network.mkNet ['A', 'B']) 'A' 'Z' 1 = Except.error e ∧
      e.nodes = (Network.mkNet ['A', 'B'] : Network Char).nodes ∧
      e.routing_tables = (Network.mkNet ['A', 'B'] : Network Char).routing_tables ∧
      ('A' ∉ (Network.mkNet ['A', 'B'] : Network Char).nodes →
        e = Network.mkNet ['A', 'B']) ∧
      ('A' ∈ (Network.mkNet ['A', 'B'] : Network Char).nodes →
        e.graph = funUpd (Network.mkNet ['A', 'B'] : Network Char).graph 'A'
          (dictSet ((Network.mkNet ['A', 'B'] : Network Char).graph 'A') 'Z' 1)) :=
  claim_C7 (Network.mkNet ['A', 'B']) 'A' 'Z' 1 (Or.inr (by decide))

/-- C8: for every engine with fresh (all-infinite) tables, after
initialization and any number of rounds, every pair with no connecting walk
in the graph still records the sentinel `(∞, None)`. -/
theorem claim_C8 (net : Network V)
    (hfresh : net.routing_tables = fun _ _ => (⊤, none))
    (k : ℕ) (S D : V) (hur : ¬∃ w, HasWalk net.graph S D w) :
    (runRounds k (init_tables net)).routing_tables S D = (⊤, none) :=
  unreachable_core net hfresh k S D hur

theorem claim_C8_witness :
    (runRounds 3 (init_tables (Network.mkNet [0, 1]))).routing_tables 0 1 =
      ((⊤ : WithTop ℤ), (none : Option ℕ)) :=
  claim_C8 (Network.mkNet [0, 1]) rfl 3 0 1 (by
    rintro ⟨w, l, hw⟩
    rcases hw.inv with ⟨h01, _, _⟩ | ⟨M, c, w', t, hM, _, _, _⟩
    · exact absurd h01 (by decide)
    · exact absurd hM (List.not_mem_nil _))

/-- C9: in every engine state reachable through `__init__`, successful
`add_link`, `initialize_tables` and `update_routing`, every recorded
next hop of a non-self entry is a key of `graph[source]`, i.e. a direct
neighbor. -/
theorem claim_C9 {net : Network V} (h : Reachable net) : NextHopInv net :=
  reachable_nexthop h

theorem claim_C9_witness : NextHopInv (Network.mkNet ([0] : List ℕ)) :=
  claim_C9 (Reachable.construct [0])

/-- C10: on an engine whose tables were never initialized (every entry is
the infinite sentinel), `update_routing` returns `False` and changes
nothing, whatever links exist: every candidate is `cost + ∞ = ∞`, never
strictly below the current `∞`. -/
theorem claim_C10 (net : Network V)
    (hfresh : net.routing_tables = fun _ _ => (⊤, none)) :
    (update_routing net).2 = false ∧ (update_routing net).1 = net := by
  have hcond : ∀ node ∈ net.nodes, ∀ nc ∈ net.graph node, ∀ dest ∈ net.nodes,
      ¬((nc.2 : WithTop ℤ) + (net.routing_tables nc.1 dest).1 <
        (net.routing_tables node dest).1) := by
    intro node _ nc _ dest _
    rw [hfresh]
    show ¬((nc.2 : WithTop ℤ) + (⊤ : WithTop ℤ) < (⊤ : WithTop ℤ))
    rw [add_top]
    exact lt_irrefl ⊤
  have h := update_routing_of_cond net hcond
  constructor
  · rw [h]
  · rw [h]

/-- A two-node engine with one link and never-initialized tables. -/
def c10net : Network ℕ :=
  { nodes := [0, 1]
    graph := fun n => if n = 0 then [(1, 5)] else if n = 1 then [(0, 5)] else []
    routing_tables := fun _ _ => (⊤, none) }

theorem claim_C10_witness :
    (update_routing c10net).2 = false ∧ (update_routing c10net).1 = c10net :=
  claim_C10 c10net rfl

end DV
